import Mathlib

/-!
Verification of the PODSCRIBE transcript-diarization fusion and chunking core.

Shallow embedding of:
  src/utils/helpers.py        (seconds_to_timestamp, timestamp_to_seconds)
  src/audio_processing/fusion.py
      (find_speaker_for_segment, merge_transcription_and_diarization)
  src/database/chunking.py    (chunk_transcript, chunk_by_speaker_turns)

Modelling conventions:
  - Python floats are modelled as exact rationals (ℚ).
  - Python `round(x, n)` is banker's rounding at n decimals (round half to even).
  - `datetime.timedelta(seconds=s)` rounds s to whole microseconds
    (round half to even) and normalises; its `.seconds` attribute is the
    per-day remainder, modelled by `tdSeconds`.
  - Python dict keys whose absence the spec discusses are `Option` fields;
    `dict.get(k, d)` is `Option.getD`; a KeyError is `Except.error` naming
    the missing key.
  - Python `str.strip` is `pyStrip`, `" ".join` is `pyJoin`,
    `str.split(c)` is `splitOnChar` on the character list of the string.
  - A Python `set` of speaker labels materialised with `list(...)` is
    modelled as an insertion-ordered duplicate-free list (`addSpeaker`);
    CPython's hash iteration order is not semantically relevant to any
    claim proved here.
-/

namespace PodScribe

/-- Round half to even (Python's `round` tie-break and the tie-break used by
`datetime.timedelta` when rounding fractional microseconds). -/
def roundHalfEven (q : ℚ) : ℤ :=
  let f := Int.floor q
  if q - f < 1/2 then f
  else if (1 : ℚ)/2 < q - f then f + 1
  else if f % 2 = 0 then f else f + 1

/-- Python `round(q, ndigits)` on an exact rational. -/
def roundTo (ndigits : ℕ) (q : ℚ) : ℚ :=
  ((roundHalfEven (q * 10 ^ ndigits) : ℤ) : ℚ) / 10 ^ ndigits

/-- The `.seconds` attribute of `datetime.timedelta(seconds=s)`: the input is
rounded to whole microseconds (half to even), normalised into days, and
`.seconds` is the nonnegative remainder below one day. -/
def tdSeconds (s : ℚ) : ℤ :=
  roundHalfEven (s * 1000000) / 1000000 % 86400

/-- Python `f"{n:0{width}d}"` for the values this module ever formats
(hours < 24, minutes and seconds < 60, milliseconds < 1000 — always below
10^width): exactly `width` zero-padded decimal digits, most significant
first. -/
def pad (width : ℕ) (n : ℕ) : List Char :=
  (List.range width).reverse.map (fun i => Nat.digitChar (n / 10 ^ i % 10))

/-- `seconds_to_timestamp` from src/utils/helpers.py: negative input is
clamped to 0; hours/minutes/seconds come from the timedelta `.seconds`
attribute; milliseconds are `int((seconds % 1) * 1000)` (truncation). -/
def seconds_to_timestamp (seconds : ℚ) (include_ms : Bool) : String :=
  let s := if seconds < 0 then 0 else seconds
  let tds := (tdSeconds s).toNat
  let hours := tds / 3600
  let minutes := tds % 3600 / 60
  let secs := tds % 60
  if include_ms then
    let milliseconds := (Int.floor ((s - Int.floor s) * 1000)).toNat
    String.mk (pad 2 hours ++ ':' :: pad 2 minutes ++ ':' :: pad 2 secs
      ++ '.' :: pad 3 milliseconds)
  else
    String.mk (pad 2 hours ++ ':' :: pad 2 minutes ++ ':' :: pad 2 secs)

/-- Python `str.split(c)`: always yields one more part than separators. -/
def splitOnChar (c : Char) : List Char → List (List Char)
  | [] => [[]]
  | a :: rest =>
    match splitOnChar c rest with
    | [] => [[]]
    | p :: ps => if a = c then [] :: p :: ps else (a :: p) :: ps

/-- Python `int(...)` restricted to unsigned decimal digit strings (empty or
non-digit input fails). -/
def parseNatDigits (cs : List Char) : Option ℕ :=
  if cs = [] then none
  else if cs.all (fun c => c.isDigit) then
    some (cs.foldl (fun a c => 10 * a + (c.toNat - 48)) 0)
  else none

/-- Python `int(...)`, allowing a leading minus sign. -/
def parseInt (cs : List Char) : Option ℤ :=
  match cs with
  | '-' :: rest => (parseNatDigits rest).map (fun n => -(n : ℤ))
  | _ => (parseNatDigits cs).map (fun n => (n : ℤ))

/-- Python `float("0." + ms_part)` for the millisecond field: the empty part
parses as 0 (Python accepts `float("0.")`); a digit string d₁…dₖ parses as
the exact rational d/10^k. -/
def parseFrac (cs : List Char) : Option ℚ :=
  if cs = [] then some 0
  else (parseNatDigits cs).map (fun n => (n : ℚ) / 10 ^ cs.length)

/-- The `time_part.split(':')` branch of `timestamp_to_seconds`: three parts
are H:M:S, two parts are M:S with hours 0, anything else is a ValueError.
The total is rounded to 3 decimals as in the source. -/
def parseHMS (timePart : List Char) (ms : ℚ) : Option ℚ :=
  match splitOnChar ':' timePart with
  | [h, m, s] =>
    (parseInt h).bind (fun hh => (parseInt m).bind (fun mm => (parseInt s).map (fun ss =>
      roundTo 3 ((hh : ℚ) * 3600 + (mm : ℚ) * 60 + (ss : ℚ) + ms))))
  | [m, s] =>
    (parseInt m).bind (fun mm => (parseInt s).map (fun ss =>
      roundTo 3 ((mm : ℚ) * 60 + (ss : ℚ) + ms)))
  | _ => none

/-- `timestamp_to_seconds` from src/utils/helpers.py; `none` models the
ValueError raised on malformed input. -/
def timestamp_to_seconds (timestamp : String) : Option ℚ :=
  match splitOnChar '.' timestamp.data with
  | [t] => parseHMS t 0
  | [t, m] => (parseFrac m).bind (fun ms => parseHMS t ms)
  | _ => none

/-- Python `str.strip()` (whitespace removed from both ends). -/
def pyStrip (s : String) : String :=
  String.mk (((s.data.dropWhile Char.isWhitespace).reverse.dropWhile
    Char.isWhitespace).reverse)

/-- Python `sep.join(parts)`. -/
def pyJoin (sep : String) : List String → String
  | [] => ""
  | [x] => x
  | x :: xs => x ++ sep ++ pyJoin sep xs

/-- Config.CHUNK_DURATION from src/utils/config.py. -/
def CHUNK_DURATION : ℚ := 45

/-- Config.CHUNK_OVERLAP from src/utils/config.py. -/
def CHUNK_OVERLAP : ℚ := 5

/-- Python's `arg or default` for an optional float argument: `None`, `0` and
`0.0` are falsy and select the default. -/
def pyOr (arg : Option ℚ) (default : ℚ) : ℚ :=
  match arg with
  | none => default
  | some x => if x = 0 then default else x

/-! ## Fusion data model (§3 / §6 of the spec, src/audio_processing/fusion.py)

`end` is a Lean keyword, so the `end` timestamps are named `stop` throughout. -/

/-- A diarization SpeakerInterval `{start, end, speaker}`. -/
structure SpeakerSeg where
  start : ℚ
  stop : ℚ
  speaker : String
deriving Repr, DecidableEq

/-- A WordSpan `{word, start?, end?}`; some backends omit word timestamps,
read in the source with `word.get("start", ...)`. -/
structure WordSpan where
  word : String
  start : Option ℚ
  stop : Option ℚ
deriving Repr, DecidableEq

/-- A TranscriptSegment `{start, end, text, words?}`. -/
structure TSeg where
  start : ℚ
  stop : ℚ
  text : String
  words : Option (List WordSpan)
deriving Repr, DecidableEq

/-- Transcription collaborator output `{file, language, segments}`; the
`segments` key's absence is claim-relevant, so it is an `Option`. -/
structure Transcription where
  file : String
  language : String
  segments : Option (List TSeg)
deriving Repr, DecidableEq

/-- Diarization collaborator output `{num_speakers, speakers, segments}`. -/
structure Diarization where
  num_speakers : ℕ
  speakers : List String
  segments : Option (List SpeakerSeg)
deriving Repr, DecidableEq

/-- MergedWord `{word, start, end, speaker}`. -/
structure MergedWord where
  word : String
  start : ℚ
  stop : ℚ
  speaker : String
deriving Repr, DecidableEq

/-- MergedSegment `{start, end, text, speaker, words?}`. -/
structure MergedSeg where
  start : ℚ
  stop : ℚ
  text : String
  speaker : String
  words : Option (List MergedWord)
deriving Repr, DecidableEq

/-- MergedTranscript `{file, language, num_speakers, speakers, segments}`. -/
structure MergedTranscript where
  file : String
  language : String
  num_speakers : ℕ
  speakers : List String
  segments : List MergedSeg
deriving Repr, DecidableEq

/-- Overlap of the query interval [segment_start, segment_end] with one
candidate: `max(0, min(segment_end, seg.end) - max(segment_start, seg.start))`
(fusion.py lines 33-36). -/
def overlapAmount (segment_start segment_end : ℚ) (seg : SpeakerSeg) : ℚ :=
  max 0 (min segment_end seg.stop - max segment_start seg.start)

/-- One iteration of the `for seg in speaker_segments` loop of
`find_speaker_for_segment`: the accumulator `(max_overlap, best_speaker)` is
replaced only on strictly greater overlap. -/
def fsStep (segment_start segment_end : ℚ) (acc : ℚ × String) (seg : SpeakerSeg) :
    ℚ × String :=
  if overlapAmount segment_start segment_end seg > acc.1 then
    (overlapAmount segment_start segment_end seg, seg.speaker)
  else acc

/-- `find_speaker_for_segment` (fusion.py lines 16-42). -/
def find_speaker_for_segment (segment_start segment_end : ℚ)
    (speaker_segments : List SpeakerSeg) : String :=
  let r := speaker_segments.foldl (fsStep segment_start segment_end)
    ((0 : ℚ), "UNKNOWN")
  if r.1 > 0 then r.2 else "UNKNOWN"

/-- The per-word merge of `merge_transcription_and_diarization`: a word missing
its own timestamps falls back to the enclosing segment's start/end. -/
def mergeWord (speaker_segments : List SpeakerSeg) (start_time end_time : ℚ)
    (w : WordSpan) : MergedWord :=
  let word_start := w.start.getD start_time
  let word_end := w.stop.getD end_time
  { word := w.word
    start := roundTo 3 word_start
    stop := roundTo 3 word_end
    speaker := find_speaker_for_segment word_start word_end speaker_segments }

/-- The per-segment merge of `merge_transcription_and_diarization`
(fusion.py lines 66-94): overlap-based speaker assignment, 3-decimal
rounding, text trim, optional word-level resolution. -/
def mergeSeg (speaker_segments : List SpeakerSeg) (segment : TSeg) : MergedSeg :=
  let start_time := segment.start
  let end_time := segment.stop
  { start := roundTo 3 start_time
    stop := roundTo 3 end_time
    text := pyStrip segment.text
    speaker := find_speaker_for_segment start_time end_time speaker_segments
    words := segment.words.map (fun ws =>
      ws.map (mergeWord speaker_segments start_time end_time)) }

/-- `merge_transcription_and_diarization` (fusion.py lines 45-116).
The source reads `diarization["segments"]` first, then
`transcription["segments"]`; a missing key is a KeyError, modelled as
`Except.error` carrying the key name. The optional persistence side effect is
outside the model. -/
def merge_transcription_and_diarization (transcription : Transcription)
    (diarization : Diarization) : Except String MergedTranscript :=
  match diarization.segments with
  | none => Except.error "segments"
  | some speaker_segments =>
    match transcription.segments with
    | none => Except.error "segments"
    | some transcript_segments =>
      Except.ok
        { file := transcription.file
          language := transcription.language
          num_speakers := diarization.num_speakers
          speakers := diarization.speakers
          segments := transcript_segments.map (mergeSeg speaker_segments) }

/-! ## Chunking data model (src/database/chunking.py) -/

/-- A merged-transcript segment as consumed by chunking: `start`, `end`,
`text` are required subscripts; `speaker` is read with
`segment.get("speaker", "UNKNOWN")`. -/
structure MSeg where
  start : ℚ
  stop : ℚ
  text : String
  speaker : Option String
deriving Repr, DecidableEq

/-- The transcript dict as consumed by chunking: both `segments` and `file`
are read with `.get` and so may be absent. -/
structure Transcript where
  file : Option String
  segments : Option (List MSeg)
deriving Repr, DecidableEq

/-- The mutable `current_chunk` accumulator of `chunk_transcript`:
`start`/`end` are initialised to `None`. -/
structure CurChunk where
  text : String
  start : Option ℚ
  stop : Option ℚ
  speakers : List String
  segment_indices : List ℕ
deriving Repr, DecidableEq

/-- A chunk as appended to `chunks` (start/end are set at append time). -/
structure RawChunk where
  text : String
  start : ℚ
  stop : ℚ
  speakers : List String
  segment_indices : List ℕ
deriving Repr, DecidableEq

/-- Loop state of `chunk_transcript`: emitted chunks plus the accumulator. -/
structure ChunkState where
  chunks : List RawChunk
  cur : CurChunk
deriving Repr, DecidableEq

/-- `set.add` modelled on an insertion-ordered duplicate-free list. -/
def addSpeaker (l : List String) (s : String) : List String :=
  if s ∈ l then l else l ++ [s]

/-- `set([...])` built from a list of labels, insertion-ordered. -/
def dedupSpeakers (ss : List String) : List String :=
  ss.foldl addSpeaker []

/-- The initial `current_chunk` of `chunk_transcript`. -/
def initCur : CurChunk :=
  { text := "", start := none, stop := none, speakers := [], segment_indices := [] }

/-- `if current_chunk["start"] is None: current_chunk["start"] =
segment["start"]` (chunking.py lines 59-60). -/
def ensureStart (st : ChunkState) (seg : MSeg) : ChunkState :=
  if st.cur.start = none then { st with cur := { st.cur with start := some seg.start } }
  else st

/-- The flush trigger (chunking.py line 65):
`chunk_duration_so_far > chunk_duration and len(current_chunk["text"]) >=
min_chunk_size`, with `chunk_duration_so_far = segment_end -
current_chunk["start"]`. `current_chunk["start"]` is always set when read
here, so `getD 0` never supplies its default. -/
def flushCond (chunk_duration : ℚ) (min_chunk_size : ℕ)
    (st : ChunkState) (seg : MSeg) : Prop :=
  seg.stop - st.cur.start.getD 0 > chunk_duration ∧
    min_chunk_size ≤ st.cur.text.length

instance (d : ℚ) (m : ℕ) (st : ChunkState) (seg : MSeg) :
    Decidable (flushCond d m st seg) :=
  instDecidableAnd

/-- The flush branch (chunking.py lines 66-88): close the accumulator with
`end = segment_end`, append it, and re-seed a new accumulator from the last
(at most 5) prior segments whose end falls within the overlap window. -/
def doFlush (segments : List MSeg) (chunk_overlap : ℚ)
    (st : ChunkState) (idx : ℕ) (seg : MSeg) : ChunkState :=
  let flushed : RawChunk :=
    { text := st.cur.text, start := st.cur.start.getD 0, stop := seg.stop,
      speakers := st.cur.speakers, segment_indices := st.cur.segment_indices }
  let overlap_start := seg.stop - chunk_overlap
  let overlap_segments :=
    ((segments.take idx).drop (idx - 5)).filter (fun s => s.stop ≥ overlap_start)
  { chunks := st.chunks ++ [flushed],
    cur := { text := pyJoin " " (overlap_segments.map (fun s => s.text)),
             start := some overlap_start,
             stop := none,
             speakers := dedupSpeakers
               (overlap_segments.map (fun s => s.speaker.getD "UNKNOWN")),
             segment_indices := [] } }

/-- The unconditional tail of the loop body (chunking.py lines 89-92): append
the current segment's text, end, speaker and index to the accumulator. -/
def appendSeg (st : ChunkState) (idx : ℕ) (seg : MSeg) : ChunkState :=
  { chunks := st.chunks,
    cur := { text := st.cur.text ++ " " ++ seg.text,
             start := st.cur.start,
             stop := some seg.stop,
             speakers := addSpeaker st.cur.speakers (seg.speaker.getD "UNKNOWN"),
             segment_indices := st.cur.segment_indices ++ [idx] } }

/-- One iteration of the `for idx, segment in enumerate(segments)` loop of
`chunk_transcript` (chunking.py lines 52-92), in source order: initialise the
chunk start if unset, flush when triggered, then append the segment. -/
def chunkStep (segments : List MSeg) (chunk_duration chunk_overlap : ℚ)
    (min_chunk_size : ℕ) (st : ChunkState) (idx : ℕ) (seg : MSeg) : ChunkState :=
  let st0 := ensureStart st seg
  let st1 := if flushCond chunk_duration min_chunk_size st0 seg then
      doFlush segments chunk_overlap st0 idx seg
    else st0
  appendSeg st1 idx seg

/-- The segment loop of `chunk_transcript`, carrying the enumeration index. -/
def chunkLoopAux (segments : List MSeg) (d o : ℚ) (m : ℕ) :
    ℕ → ChunkState → List MSeg → ChunkState
  | _, st, [] => st
  | idx, st, seg :: rest =>
    chunkLoopAux segments d o m (idx + 1) (chunkStep segments d o m st idx seg) rest

/-- The whole segment loop of `chunk_transcript` from the initial state. -/
def chunkLoop (segments : List MSeg) (d o : ℚ) (m : ℕ) : ChunkState :=
  chunkLoopAux segments d o m 0 { chunks := [], cur := initCur } segments

/-- The formatted chunk record produced at the end of `chunk_transcript`
(chunking.py lines 100-114). -/
structure Chunk where
  chunk_id : ℕ
  text : String
  start : ℚ
  stop : ℚ
  timestamp_start : String
  timestamp_end : String
  duration : ℚ
  speakers : List String
  episode : String
  num_segments : ℕ
deriving Repr, DecidableEq, Inhabited

/-- Formatting of one chunk with its 0-based id. -/
def formatChunk (episode : String) (i : ℕ) (c : RawChunk) : Chunk :=
  { chunk_id := i
    text := pyStrip c.text
    start := c.start
    stop := c.stop
    timestamp_start := seconds_to_timestamp c.start true
    timestamp_end := seconds_to_timestamp c.stop true
    duration := roundTo 2 (c.stop - c.start)
    speakers := c.speakers
    episode := episode
    num_segments := c.segment_indices.length }

/-- The `for i, chunk in enumerate(chunks)` formatting loop. -/
def formatChunksAux (episode : String) : ℕ → List RawChunk → List Chunk
  | _, [] => []
  | i, c :: rest => formatChunk episode i c :: formatChunksAux episode (i + 1) rest

/-- All chunks formatted with sequential ids from 0. -/
def formatChunks (episode : String) (raw : List RawChunk) : List Chunk :=
  formatChunksAux episode 0 raw

/-- The accumulator converted to a chunk at the final flush; its `start` and
`stop` are always set at that point (`getD 0` never supplies its default
when the segment list is nonempty). -/
def finalizeCur (cur : CurChunk) : RawChunk :=
  { text := cur.text, start := cur.start.getD 0, stop := cur.stop.getD 0,
    speakers := cur.speakers, segment_indices := cur.segment_indices }

/-- `chunk_transcript` (chunking.py lines 15-116): falsy duration/overlap
arguments fall back to the Config defaults; empty or absent `segments`
returns `[]`; otherwise the loop runs and the trailing accumulator is
emitted only if its text is non-blank and at least `min_chunk_size` long. -/
def chunk_transcript (transcript : Transcript)
    (chunk_duration chunk_overlap : Option ℚ) (min_chunk_size : ℕ) : List Chunk :=
  let d := pyOr chunk_duration CHUNK_DURATION
  let o := pyOr chunk_overlap CHUNK_OVERLAP
  let segments := transcript.segments.getD []
  let episode_name := transcript.file.getD "unknown"
  if segments = [] then []
  else
    let st := chunkLoop segments d o min_chunk_size
    let raw :=
      if pyStrip st.cur.text ≠ "" ∧ min_chunk_size ≤ st.cur.text.length then
        st.chunks ++ [finalizeCur st.cur]
      else st.chunks
    formatChunks episode_name raw

/-! ## Speaker-turn chunker (chunking.py lines 118-183) -/

/-- The mutable `current_chunk` dict of `chunk_by_speaker_turns`; the initial
dict has no `episode` key, chunks created at a speaker change do. -/
structure TurnChunk where
  text : String
  start : Option ℚ
  stop : Option ℚ
  speaker : Option String
  episode : Option String
deriving Repr, DecidableEq

/-- Loop state of `chunk_by_speaker_turns`. -/
structure TurnState where
  chunks : List TurnChunk
  cur : TurnChunk
  current_speaker : Option String
deriving Repr, DecidableEq

/-- One iteration of the segment loop of `chunk_by_speaker_turns`. Python
truthiness is preserved: `current_chunk["start"]` guards the duration test
and is falsy for both `None` and `0.0`; likewise
`current_chunk.get("end") or segment["start"]` treats an end of `0.0` as
unset. -/
def turnStep (episode_name : String) (max_turn_duration : ℚ)
    (st : TurnState) (seg : MSeg) : TurnState :=
  let speaker := seg.speaker.getD "UNKNOWN"
  let speakerChanged : Bool :=
    match st.current_speaker with
    | none => true
    | some s0 => speaker != s0
  let condA : Bool := speakerChanged && (st.cur.text != "")
  let condB : Bool :=
    match st.cur.start with
    | none => false
    | some q => if q = 0 then false
                else if seg.stop - q > max_turn_duration then true else false
  if condA || condB then
    let newEnd : ℚ :=
      match st.cur.stop with
      | none => seg.start
      | some q => if q = 0 then seg.start else q
    { chunks := st.chunks ++ [{ st.cur with stop := some newEnd }],
      cur := { text := seg.text, start := some seg.start, stop := some seg.stop,
               speaker := some speaker, episode := some episode_name },
      current_speaker := some speaker }
  else
    let cur1 :=
      if st.cur.text = "" then
        { st.cur with start := some seg.start, speaker := some speaker }
      else st.cur
    let cs1 := if st.cur.text = "" then some speaker else st.current_speaker
    { chunks := st.chunks,
      cur := { cur1 with text := cur1.text ++ " " ++ seg.text, stop := some seg.stop },
      current_speaker := cs1 }

/-- A chunk of `chunk_by_speaker_turns` after the formatting loop
(chunking.py lines 174-181); the `speakers` field is literally
`[chunk["speaker"]]`. -/
structure FormattedTurn where
  chunk_id : ℕ
  text : String
  start : ℚ
  stop : ℚ
  speaker : Option String
  episode : Option String
  timestamp_start : String
  timestamp_end : String
  duration : ℚ
  speakers : List (Option String)
deriving Repr, DecidableEq, Inhabited

/-- Formatting of one speaker-turn chunk; start/end are always set on
emitted chunks, so `getD 0` never supplies its default. -/
def formatTurn (i : ℕ) (c : TurnChunk) : FormattedTurn :=
  { chunk_id := i
    text := c.text
    start := c.start.getD 0
    stop := c.stop.getD 0
    speaker := c.speaker
    episode := c.episode
    timestamp_start := seconds_to_timestamp (c.start.getD 0) true
    timestamp_end := seconds_to_timestamp (c.stop.getD 0) true
    duration := roundTo 2 (c.stop.getD 0 - c.start.getD 0)
    speakers := [c.speaker] }

/-- The `for i, chunk in enumerate(chunks)` formatting loop of
`chunk_by_speaker_turns`. -/
def formatTurnsAux : ℕ → List TurnChunk → List FormattedTurn
  | _, [] => []
  | i, c :: rest => formatTurn i c :: formatTurnsAux (i + 1) rest

/-- `chunk_by_speaker_turns` (chunking.py lines 118-183). -/
def chunk_by_speaker_turns (transcript : Transcript)
    (max_turn_duration : ℚ) : List FormattedTurn :=
  let segments := transcript.segments.getD []
  let episode_name := transcript.file.getD "unknown"
  let st := segments.foldl (turnStep episode_name max_turn_duration)
    { chunks := [],
      cur := { text := "", start := none, stop := none, speaker := none,
               episode := none },
      current_speaker := none }
  let chunks := if pyStrip st.cur.text ≠ "" then st.chunks ++ [st.cur] else st.chunks
  formatTurnsAux 0 chunks

/-! ## Invariants used to reason about the duration chunker -/

/-- Ordering invariant of the chunker loop: emitted chunk starts are
nondecreasing, an unset accumulator start means nothing was emitted yet, and
every emitted start is bounded by the accumulator start. -/
def InvM (st : ChunkState) : Prop :=
  List.Chain' (fun a b => a.start ≤ b.start) st.chunks ∧
  (st.cur.start = none → st.chunks = []) ∧
  (∀ s, st.cur.start = some s → ∀ c ∈ st.chunks, c.start ≤ s)

/-- Adjacency relation for coverage: the next chunk starts no later than the
previous chunk ends. -/
def linkRel (a b : RawChunk) : Prop := b.start ≤ a.stop

/-- Coverage invariant of the chunker loop, relative to the start `fs` of the
first segment: emitted chunks are pairwise linked, the first emitted chunk
starts at `fs`, an accumulator that has not yet flushed still starts at `fs`,
and the accumulator start is bounded by the last emitted chunk's end. -/
def InvC (fs : ℚ) (st : ChunkState) : Prop :=
  List.Chain' linkRel st.chunks ∧
  (∀ c ∈ st.chunks.head?, c.start = fs) ∧
  (∀ s, st.cur.start = some s → st.chunks = [] → s = fs) ∧
  (∀ s, st.cur.start = some s → ∀ c ∈ st.chunks.getLast?, s ≤ c.stop)

/-! ## Concrete instances used by witnesses and counterexamples -/

/-- A transcription with one segment, for the fusion witnesses. -/
def wT : Transcription := ⟨"f", "en", some [⟨0, 5, "hi", none⟩]⟩

/-- A diarization with one interval, for the fusion witnesses. -/
def wD : Diarization := ⟨1, ["SPEAKER_00"], some [⟨0, 7, "SPEAKER_00"⟩]⟩

/-- A transcription whose `segments` key is absent. -/
def wT8 : Transcription := ⟨"f", "en", none⟩

/-- Counterexample input for chunk ordering: three short segments. -/
def ex3 : Transcript :=
  ⟨some "e", some [⟨0, 2, "aa", some "A"⟩, ⟨2, 3, "bb", some "B"⟩,
    ⟨3, 4, "cc", some "C"⟩]⟩

/-- Counterexample input for coverage: the trailing accumulator (segments 2
and 3, spanning up to t=20) stays under `min_chunk_size` and is dropped. -/
def ex4a : Transcript :=
  ⟨some "e", some [⟨0, 1, "hello", some "A"⟩, ⟨1, 12, "x", some "A"⟩,
    ⟨12, 20, "y", some "A"⟩]⟩

/-- Counterexample input for coverage with a negative overlap argument. -/
def ex4b : Transcript :=
  ⟨some "e", some [⟨0, 2, "aa", some "A"⟩, ⟨2, 3, "bb", some "A"⟩,
    ⟨3, 20, "cc", some "A"⟩]⟩

/-- Sixty copies of the letter x, long enough to pass the default
`min_chunk_size` of 50. -/
def sixty : String := String.mk (List.replicate 60 'x')

/-- Witness input for chunk ordering: produces two chunks under the Config
defaults. -/
def w3T : Transcript :=
  ⟨some "e", some [⟨0, 50, sixty, some "A"⟩, ⟨50, 100, sixty, some "B"⟩,
    ⟨100, 101, "z", some "C"⟩]⟩

/-- Witness input for coverage: two segments, single emitted chunk. -/
def w4T : Transcript :=
  ⟨some "e", some [⟨0, 5, "hello", some "A"⟩, ⟨5, 10, "world", some "B"⟩]⟩

/-- Witness input for the speaker-turn chunker: two speakers. -/
def w6T : Transcript :=
  ⟨some "e", some [⟨0, 5, "hi", some "A"⟩, ⟨5, 9, "yo", some "B"⟩]⟩

/-- Forty-nine spaces: with the default minimum of 50, the accumulated text
reaches exactly 50 characters but strips to the empty string. -/
def spaces49 : String := String.mk (List.replicate 49 ' ')

/-- Counterexample input for the final-chunk policy: one blank segment. -/
def w7T : Transcript := ⟨some "e", some [⟨0, 1, spaces49, some "A"⟩]⟩

/-- Witness input for the final-chunk policy: one real segment. -/
def w7W : Transcript := ⟨some "e", some [⟨0, 1, "hello", some "A"⟩]⟩

/-!
# Theorems
-/

/-- Every per-candidate overlap is nonnegative. -/
lemma overlapAmount_nonneg (s e : ℚ) (seg : SpeakerSeg) :
    0 ≤ overlapAmount s e seg :=
  le_max_left 0 _

/-- Loop invariant of `find_speaker_for_segment`: from any accumulator
`(m, b)` with `0 ≤ m`, the fold either keeps the accumulator (and every
candidate overlaps by at most `m`), or returns the overlap and speaker of the
first candidate attaining the strict maximum overlap above `m`. -/
lemma fsFold_spec (s e : ℚ) :
    ∀ (l : List SpeakerSeg) (m : ℚ) (b : String), 0 ≤ m →
      (l.foldl (fsStep s e) (m, b) = (m, b) ∧
        ∀ seg ∈ l, overlapAmount s e seg ≤ m) ∨
      (∃ (i : ℕ) (hi : i < l.length),
        l.foldl (fsStep s e) (m, b)
          = (overlapAmount s e (l.get ⟨i, hi⟩), (l.get ⟨i, hi⟩).speaker) ∧
        m < overlapAmount s e (l.get ⟨i, hi⟩) ∧
        (∀ (j : ℕ) (hj : j < l.length),
          overlapAmount s e (l.get ⟨j, hj⟩) ≤ overlapAmount s e (l.get ⟨i, hi⟩)) ∧
        (∀ (j : ℕ) (hj : j < l.length), j < i →
          overlapAmount s e (l.get ⟨j, hj⟩) < overlapAmount s e (l.get ⟨i, hi⟩))) := by
  intro l
  induction l with
  | nil => intro m b hm; left; simp
  | cons a t ih =>
    intro m b hm
    by_cases ha : overlapAmount s e a > m
    · have hstep : (a :: t).foldl (fsStep s e) (m, b)
          = t.foldl (fsStep s e) (overlapAmount s e a, a.speaker) := by
        simp [fsStep, ha]
      rcases ih (overlapAmount s e a) a.speaker (overlapAmount_nonneg s e a) with
        ⟨heq, hall⟩ | ⟨i, hi, heq, hlt, hmax, hfirst⟩
      · right
        refine ⟨0, by simp, ?_, ?_, ?_, ?_⟩
        · rw [hstep, heq]; rfl
        · simpa using ha
        · intro j hj
          match j with
          | 0 => simp
          | j + 1 =>
            simp only [List.get_cons_succ]
            simpa using hall _ (t.get_mem _ _)
        · intro j hj hj0; omega
      · right
        refine ⟨i + 1, by simpa using hi, ?_, ?_, ?_, ?_⟩
        · rw [hstep, heq]; rfl
        · exact lt_trans ha hlt
        · intro j hj
          match j with
          | 0 => simpa using le_of_lt hlt
          | j + 1 =>
            simp only [List.get_cons_succ]
            exact hmax j (by simpa using hj)
        · intro j hj hji
          match j with
          | 0 => simpa using hlt
          | j + 1 =>
            simp only [List.get_cons_succ]
            exact hfirst j (by simpa using hj) (by omega)
    · have ha' : overlapAmount s e a ≤ m := le_of_not_lt ha
      have hstep : (a :: t).foldl (fsStep s e) (m, b)
          = t.foldl (fsStep s e) (m, b) := by
        simp [fsStep, ha]
      rcases ih m b hm with ⟨heq, hall⟩ | ⟨i, hi, heq, hlt, hmax, hfirst⟩
      · left
        refine ⟨by rw [hstep, heq], ?_⟩
        intro seg hseg
        rcases List.mem_cons.mp hseg with rfl | hseg
        · exact ha'
        · exact hall seg hseg
      · right
        refine ⟨i + 1, by simpa using hi, ?_, ?_, ?_, ?_⟩
        · rw [hstep, heq]; rfl
        · exact hlt
        · intro j hj
          match j with
          | 0 => simpa using le_of_lt (lt_of_le_of_lt ha' hlt)
          | j + 1 =>
            simp only [List.get_cons_succ]
            exact hmax j (by simpa using hj)
        · intro j hj hji
          match j with
          | 0 => simpa using lt_of_le_of_lt ha' hlt
          | j + 1 =>
            simp only [List.get_cons_succ]
            exact hfirst j (by simpa using hj) (by omega)

/-- Claim C1: `find_speaker_for_segment` returns the speaker label of the
candidate interval with strictly greatest overlap; on ties the first-seen
candidate in list order wins; and when the maximum overlap over all
candidates is 0 (including the empty list) the result is the sentinel
"UNKNOWN". -/
theorem claim_C1 (s e : ℚ) (l : List SpeakerSeg) :
    ((∀ seg ∈ l, overlapAmount s e seg = 0) →
      find_speaker_for_segment s e l = "UNKNOWN") ∧
    ((∃ seg ∈ l, 0 < overlapAmount s e seg) →
      ∃ (i : ℕ) (hi : i < l.length),
        find_speaker_for_segment s e l = (l.get ⟨i, hi⟩).speaker ∧
        0 < overlapAmount s e (l.get ⟨i, hi⟩) ∧
        (∀ (j : ℕ) (hj : j < l.length),
          overlapAmount s e (l.get ⟨j, hj⟩) ≤ overlapAmount s e (l.get ⟨i, hi⟩)) ∧
        (∀ (j : ℕ) (hj : j < l.length), j < i →
          overlapAmount s e (l.get ⟨j, hj⟩) < overlapAmount s e (l.get ⟨i, hi⟩))) := by
  constructor
  · intro hz
    rcases fsFold_spec s e l 0 "UNKNOWN" le_rfl with ⟨heq, _⟩ | ⟨i, hi, _, hlt, _, _⟩
    · simp [find_speaker_for_segment, heq]
    · have := hz _ (l.get_mem i hi)
      rw [this] at hlt
      exact absurd hlt (lt_irrefl 0)
  · rintro ⟨seg, hmem, hpos⟩
    rcases fsFold_spec s e l 0 "UNKNOWN" le_rfl with
      ⟨_, hall⟩ | ⟨i, hi, heq, hlt, hmax, hfirst⟩
    · exact absurd hpos (not_lt.mpr (hall seg hmem))
    · refine ⟨i, hi, ?_, hlt, hmax, hfirst⟩
      simp [find_speaker_for_segment, heq, hlt]
      intro h
      exact absurd (lt_of_lt_of_le hlt h) (lt_irrefl 0)

/-- Witness for claim C1 at the spec's no-overlap example:
`find_speaker(10, 20, [{0, 5, "A"}])` is "UNKNOWN". -/
theorem claim_C1_witness :
    find_speaker_for_segment 10 20 [⟨0, 5, "A"⟩] = "UNKNOWN" :=
  (claim_C1 10 20 [⟨0, 5, "A"⟩]).1 (by with_unfolding_all decide)

/-- Claim C2: when both inputs carry a `segments` key, the merge succeeds and
its merged segments list has exactly the length of the transcript's, the
i-th merged segment being produced from the i-th transcript segment. -/
theorem claim_C2 (t : Transcription) (d : Diarization)
    (ts : List TSeg) (ds : List SpeakerSeg)
    (ht : t.segments = some ts) (hd : d.segments = some ds) :
    ∃ M, merge_transcription_and_diarization t d = Except.ok M ∧
      M.segments.length = ts.length ∧
      ∀ (i : ℕ) (hi : i < ts.length) (hm : i < M.segments.length),
        M.segments.get ⟨i, hm⟩ = mergeSeg ds (ts.get ⟨i, hi⟩) := by
  refine ⟨⟨t.file, t.language, d.num_speakers, d.speakers,
    ts.map (mergeSeg ds)⟩, ?_, ?_, ?_⟩
  · simp [merge_transcription_and_diarization, ht, hd]
  · simp
  · intro i hi hm
    simp

/-- Witness for claim C2: a one-segment transcription merged with a
one-interval diarization yields exactly one merged segment. -/
theorem claim_C2_witness :
    ∃ M, merge_transcription_and_diarization wT wD = Except.ok M ∧
      M.segments.length = 1 := by
  obtain ⟨M, h1, h2, _⟩ :=
    claim_C2 wT wD [⟨0, 5, "hi", none⟩] [⟨0, 7, "SPEAKER_00"⟩] rfl rfl
  exact ⟨M, h1, h2⟩

/-- Claim C8: the merge fails with a missing-key error whenever the
`segments` key is absent from either input; the error propagates as an
`Except.error` (hard failure), with no partial merged transcript produced. -/
theorem claim_C8 (t : Transcription) (d : Diarization)
    (h : t.segments = none ∨ d.segments = none) :
    merge_transcription_and_diarization t d = Except.error "segments" := by
  rcases h with h | h
  · cases hd : d.segments <;> simp [merge_transcription_and_diarization, h, hd]
  · simp [merge_transcription_and_diarization, h]

/-- Witness for claim C8: a transcription lacking `segments` makes the merge
fail with the missing-key error. -/
theorem claim_C8_witness :
    merge_transcription_and_diarization wT8 wD = Except.error "segments" :=
  claim_C8 wT8 wD (Or.inl rfl)

/-- Claim C9: a transcript whose segments list is empty, or whose `segments`
key is absent, makes `chunk_transcript` return the empty chunk list (the
function is total here: no error is raised). -/
theorem claim_C9 (t : Transcript) (cd co : Option ℚ) (m : ℕ)
    (h : t.segments = none ∨ t.segments = some []) :
    chunk_transcript t cd co m = [] := by
  rcases h with h | h <;> simp [chunk_transcript, h]

/-- Witness for claim C9: a transcript with no `segments` key chunks to `[]`. -/
theorem claim_C9_witness :
    chunk_transcript ⟨some "e", none⟩ none none 50 = [] :=
  claim_C9 ⟨some "e", none⟩ none none 50 (Or.inl rfl)

/-- Claim C10: falsy `chunk_duration`/`chunk_overlap` arguments (0 as well as
None) are replaced by the Config defaults through the `or`-fallback, so a
caller can never make the function chunk with a zero duration or overlap. -/
theorem claim_C10 (t : Transcript) (m : ℕ) :
    chunk_transcript t (some 0) (some 0) m = chunk_transcript t none none m ∧
    chunk_transcript t none none m
      = chunk_transcript t (some CHUNK_DURATION) (some CHUNK_OVERLAP) m ∧
    (∀ a : Option ℚ, pyOr a CHUNK_DURATION ≠ 0 ∧ pyOr a CHUNK_OVERLAP ≠ 0) := by
  refine ⟨?_, ?_, ?_⟩
  · simp [chunk_transcript, pyOr]
  · norm_num [chunk_transcript, pyOr, CHUNK_DURATION, CHUNK_OVERLAP]
  · intro a
    cases a with
    | none => norm_num [pyOr, CHUNK_DURATION, CHUNK_OVERLAP]
    | some x =>
      by_cases hx : x = 0 <;>
        simp [pyOr, hx, CHUNK_DURATION, CHUNK_OVERLAP]

/-- Every member of a formatted speaker-turn chunk list is the formatting of
some raw turn chunk. -/
lemma mem_formatTurnsAux :
    ∀ (i : ℕ) (l : List TurnChunk) (c : FormattedTurn),
      c ∈ formatTurnsAux i l → ∃ j tc, c = formatTurn j tc := by
  intro i l
  induction l generalizing i with
  | nil => intro c hc; simp [formatTurnsAux] at hc
  | cons a rest ih =>
    intro c hc
    rcases List.mem_cons.mp hc with hc | hc
    · exact ⟨i, a, hc⟩
    · exact ih (i + 1) c hc

/-- Claim C6: every chunk produced by `chunk_by_speaker_turns` has a
`speakers` field that is the singleton list of its one active speaker. -/
theorem claim_C6 (t : Transcript) (max_turn_duration : ℚ) :
    ∀ c ∈ chunk_by_speaker_turns t max_turn_duration,
      c.speakers = [c.speaker] ∧ c.speakers.length = 1 := by
  intro c hc
  simp only [chunk_by_speaker_turns] at hc
  obtain ⟨j, tc, rfl⟩ := mem_formatTurnsAux 0 _ c hc
  exact ⟨rfl, rfl⟩

/-- Witness for claim C6: the first chunk of a two-speaker example has a
singleton speakers list. -/
theorem claim_C6_witness :
    ((chunk_by_speaker_turns w6T 60).headD default).speakers.length = 1 :=
  (claim_C6 w6T 60 ((chunk_by_speaker_turns w6T 60).headD default)
    (by with_unfolding_all decide)).2

/-- When the end-of-stream accumulator passes both final tests (non-blank
after strip, at least `min_chunk_size` characters), `chunk_transcript`
appends its finalisation to the flushed chunks before formatting. -/
lemma chunk_transcript_emit (t : Transcript) (cd co : Option ℚ) (m : ℕ)
    (segs : List MSeg) (hs : t.segments = some segs) (hne : segs ≠ [])
    (h : pyStrip (chunkLoop segs (pyOr cd CHUNK_DURATION) (pyOr co CHUNK_OVERLAP) m).cur.text
        ≠ "" ∧
      m ≤ (chunkLoop segs (pyOr cd CHUNK_DURATION) (pyOr co CHUNK_OVERLAP) m).cur.text.length) :
    chunk_transcript t cd co m
      = formatChunks (t.file.getD "unknown")
          ((chunkLoop segs (pyOr cd CHUNK_DURATION) (pyOr co CHUNK_OVERLAP) m).chunks
            ++ [finalizeCur
                  (chunkLoop segs (pyOr cd CHUNK_DURATION) (pyOr co CHUNK_OVERLAP) m).cur]) := by
  simp only [chunk_transcript, hs, Option.getD_some]
  rw [if_neg hne, if_pos h]

/-- Claim C7 (amended): after the segment stream ends, `chunk_transcript`
emits the remaining accumulator as a final chunk iff its text holds at least
`min_chunk_size` characters AND does not strip to the empty string; trailing
content failing either test is dropped. -/
theorem claim_C7 (t : Transcript) (cd co : Option ℚ) (m : ℕ) (segs : List MSeg)
    (hs : t.segments = some segs) (hne : segs ≠ []) :
    (pyStrip (chunkLoop segs (pyOr cd CHUNK_DURATION) (pyOr co CHUNK_OVERLAP) m).cur.text
        ≠ "" ∧
      m ≤ (chunkLoop segs (pyOr cd CHUNK_DURATION) (pyOr co CHUNK_OVERLAP) m).cur.text.length →
      chunk_transcript t cd co m
        = formatChunks (t.file.getD "unknown")
            ((chunkLoop segs (pyOr cd CHUNK_DURATION) (pyOr co CHUNK_OVERLAP) m).chunks
              ++ [finalizeCur
                    (chunkLoop segs (pyOr cd CHUNK_DURATION) (pyOr co CHUNK_OVERLAP) m).cur])) ∧
    (¬ (pyStrip (chunkLoop segs (pyOr cd CHUNK_DURATION) (pyOr co CHUNK_OVERLAP) m).cur.text
          ≠ "" ∧
        m ≤ (chunkLoop segs (pyOr cd CHUNK_DURATION) (pyOr co CHUNK_OVERLAP) m).cur.text.length) →
      chunk_transcript t cd co m
        = formatChunks (t.file.getD "unknown")
            (chunkLoop segs (pyOr cd CHUNK_DURATION) (pyOr co CHUNK_OVERLAP) m).chunks) := by
  constructor <;> intro h
  · exact chunk_transcript_emit t cd co m segs hs hne h
  · simp only [chunk_transcript, hs, Option.getD_some]
    rw [if_neg hne, if_neg h]

/-- Counterexample for claim C7 as stated: a single blank segment accumulates
50 characters, meeting the minimum of 50, yet the final chunk is dropped
because the text strips to empty — the output is `[]`, not a one-chunk
list. -/
theorem claim_C7_counterexample :
    (chunkLoop [⟨0, 1, spaces49, some "A"⟩]
        (pyOr none CHUNK_DURATION) (pyOr none CHUNK_OVERLAP) 50).cur.text.length = 50 ∧
    50 ≤ (chunkLoop [⟨0, 1, spaces49, some "A"⟩]
        (pyOr none CHUNK_DURATION) (pyOr none CHUNK_OVERLAP) 50).cur.text.length ∧
    chunk_transcript w7T none none 50 = [] := by
  with_unfolding_all decide

/-- Witness for claim C7: a non-blank accumulator of sufficient length is
emitted as the final chunk. -/
theorem claim_C7_witness :
    chunk_transcript w7W none none 1
      = formatChunks "e"
          ((chunkLoop [⟨0, 1, "hello", some "A"⟩]
              (pyOr none CHUNK_DURATION) (pyOr none CHUNK_OVERLAP) 1).chunks
            ++ [finalizeCur
                  (chunkLoop [⟨0, 1, "hello", some "A"⟩]
                    (pyOr none CHUNK_DURATION) (pyOr none CHUNK_OVERLAP) 1).cur]) :=
  (claim_C7 w7W none none 1 [⟨0, 1, "hello", some "A"⟩] rfl
    (List.cons_ne_nil _ _)).1 (by with_unfolding_all decide)

/-- `ensureStart` always leaves the accumulator start set. -/
lemma ensureStart_isSome (st : ChunkState) (seg : MSeg) :
    (ensureStart st seg).cur.start.isSome := by
  unfold ensureStart
  split_ifs with h0
  · simp
  · simpa [Option.isSome_iff_ne_none] using h0

/-- Every loop iteration leaves the accumulator start set. -/
lemma chunkStep_isSome (segments : List MSeg) (d o : ℚ) (m : ℕ)
    (st : ChunkState) (idx : ℕ) (seg : MSeg) :
    (chunkStep segments d o m st idx seg).cur.start.isSome := by
  simp only [chunkStep, appendSeg]
  split_ifs with hc
  · simp [doFlush]
  · simpa using ensureStart_isSome st seg

/-- Every loop iteration sets the accumulator end to the segment's end. -/
lemma chunkStep_stop (segments : List MSeg) (d o : ℚ) (m : ℕ)
    (st : ChunkState) (idx : ℕ) (seg : MSeg) :
    (chunkStep segments d o m st idx seg).cur.stop = some seg.stop := rfl

/-- The ordering invariant survives `ensureStart`. -/
lemma invM_ensureStart (st : ChunkState) (seg : MSeg) (h : InvM st) :
    InvM (ensureStart st seg) := by
  obtain ⟨h1, h2, h3⟩ := h
  unfold ensureStart
  split_ifs with h0
  · refine ⟨h1, by simp, ?_⟩
    intro s hs c hc
    rw [h2 h0] at hc
    cases hc
  · exact ⟨h1, h2, h3⟩

/-- The ordering invariant survives `appendSeg` (which touches neither the
emitted chunks nor the accumulator start). -/
lemma invM_appendSeg (st : ChunkState) (idx : ℕ) (seg : MSeg) (h : InvM st) :
    InvM (appendSeg st idx seg) := h

/-- The ordering invariant survives a flush when the effective overlap is at
most the effective duration: the re-seeded accumulator starts strictly after
the chunk just emitted. -/
lemma invM_doFlush (segments : List MSeg) (d o : ℚ) (m : ℕ) (ho : o ≤ d)
    (st : ChunkState) (idx : ℕ) (seg : MSeg)
    (h : InvM st) (s : ℚ) (hs : st.cur.start = some s)
    (hcond : flushCond d m st seg) :
    InvM (doFlush segments o st idx seg) := by
  obtain ⟨h1, h2, h3⟩ := h
  obtain ⟨hd, -⟩ := hcond
  rw [hs] at hd
  simp only [Option.getD_some] at hd
  have hnew : s < seg.stop - o := by linarith
  unfold doFlush
  refine ⟨?_, by simp, ?_⟩
  · rw [List.chain'_append]
    refine ⟨h1, List.chain'_singleton _, ?_⟩
    intro x hx y hy
    simp only [List.head?_cons, Option.mem_def, Option.some.injEq] at hy
    obtain ⟨hne, hxl⟩ := List.mem_getLast?_eq_getLast hx
    subst hxl
    rw [← hy]
    simpa [hs] using h3 s hs _ (List.getLast_mem hne)
  · intro s1 hs1 c hc
    simp only [Option.some.injEq] at hs1
    rcases List.mem_append.mp hc with hc | hc
    · exact le_trans (h3 s hs c hc) (le_of_lt (hs1 ▸ hnew))
    · simp only [List.mem_singleton] at hc
      subst hc
      simpa [hs, ← hs1] using le_of_lt hnew

/-- The ordering invariant survives one whole loop iteration. -/
lemma invM_chunkStep (segments : List MSeg) (d o : ℚ) (m : ℕ) (ho : o ≤ d)
    (st : ChunkState) (idx : ℕ) (seg : MSeg) (h : InvM st) :
    InvM (chunkStep segments d o m st idx seg) := by
  have h0 := invM_ensureStart st seg h
  obtain ⟨s, hs⟩ := Option.isSome_iff_exists.mp (ensureStart_isSome st seg)
  simp only [chunkStep]
  split_ifs with hc
  · exact invM_appendSeg _ idx seg (invM_doFlush segments d o m ho _ idx seg h0 s hs hc)
  · exact invM_appendSeg _ idx seg h0

/-- The ordering invariant survives the whole loop. -/
lemma chunkLoopAux_invM (segments : List MSeg) (d o : ℚ) (m : ℕ) (ho : o ≤ d) :
    ∀ (l : List MSeg) (idx : ℕ) (st : ChunkState), InvM st →
      InvM (chunkLoopAux segments d o m idx st l)
  | [], _, _, h => h
  | seg :: rest, idx, st, h =>
    chunkLoopAux_invM segments d o m ho rest (idx + 1) _
      (invM_chunkStep segments d o m ho st idx seg h)

/-- After the loop the accumulator start stays set. -/
lemma chunkLoopAux_isSome (segments : List MSeg) (d o : ℚ) (m : ℕ) :
    ∀ (l : List MSeg) (idx : ℕ) (st : ChunkState), st.cur.start.isSome →
      (chunkLoopAux segments d o m idx st l).cur.start.isSome
  | [], _, _, h => h
  | seg :: rest, idx, st, _ =>
    chunkLoopAux_isSome segments d o m rest (idx + 1) _
      (chunkStep_isSome segments d o m st idx seg)

/-- On a nonempty segment list the loop ends with the accumulator start set. -/
lemma chunkLoop_isSome (segments : List MSeg) (d o : ℚ) (m : ℕ)
    (hne : segments ≠ []) : (chunkLoop segments d o m).cur.start.isSome := by
  cases segments with
  | nil => exact absurd rfl hne
  | cons a rest =>
    show (chunkLoopAux _ d o m 1 (chunkStep _ d o m _ 0 a) rest).cur.start.isSome
    exact chunkLoopAux_isSome _ d o m rest 1 _ (chunkStep_isSome _ d o m _ 0 a)

/-- The initial loop state satisfies the ordering invariant. -/
lemma invM_init : InvM { chunks := [], cur := initCur } :=
  ⟨List.chain'_nil, fun _ => rfl, fun s hs c hc => by cases hc⟩

/-- The ordering invariant of the completed loop. -/
lemma chunkLoop_invM (segments : List MSeg) (d o : ℚ) (m : ℕ) (ho : o ≤ d) :
    InvM (chunkLoop segments d o m) :=
  chunkLoopAux_invM segments d o m ho segments 0 _ invM_init

/-- Formatting preserves the chunk start values, in order. -/
lemma formatChunksAux_map_start (ep : String) :
    ∀ (i : ℕ) (raw : List RawChunk),
      (formatChunksAux ep i raw).map Chunk.start = raw.map RawChunk.start
  | _, [] => rfl
  | i, c :: rest => by
    simp only [formatChunksAux, List.map_cons, formatChunksAux_map_start ep (i + 1) rest]
    rfl

/-- The start values of the raw chunk list that `chunk_transcript` formats
are nondecreasing whenever the effective overlap is at most the effective
duration. -/
lemma chunkRaw_sorted (segments : List MSeg) (d o : ℚ) (m : ℕ) (ho : o ≤ d)
    (hne : segments ≠ []) :
    List.Chain' (fun a b => a.start ≤ b.start)
      ((chunkLoop segments d o m).chunks ++ [finalizeCur (chunkLoop segments d o m).cur]) ∧
    List.Chain' (fun a b => a.start ≤ b.start) (chunkLoop segments d o m).chunks := by
  obtain ⟨h1, h2, h3⟩ := chunkLoop_invM segments d o m ho
  obtain ⟨s, hs⟩ := Option.isSome_iff_exists.mp (chunkLoop_isSome segments d o m hne)
  refine ⟨?_, h1⟩
  rw [List.chain'_append]
  refine ⟨h1, List.chain'_singleton _, ?_⟩
  intro x hx y hy
  simp only [List.head?_cons, Option.mem_def, Option.some.injEq] at hy
  obtain ⟨hne2, hxl⟩ := List.mem_getLast?_eq_getLast hx
  subst hxl
  rw [← hy]
  simpa [finalizeCur, hs] using h3 s hs _ (List.getLast_mem hne2)

/-- Claim C3 (amended): whenever the effective chunk overlap is at most the
effective chunk duration (as it is under the Config defaults 5 and 45), the
chunk list returned by `chunk_transcript` is time-ordered,
`chunks[i].start ≤ chunks[i+1].start` for every valid index. -/
theorem claim_C3 (t : Transcript) (cd co : Option ℚ) (m : ℕ)
    (ho : pyOr co CHUNK_OVERLAP ≤ pyOr cd CHUNK_DURATION) :
    ∀ (i : ℕ) (h1 : i + 1 < (chunk_transcript t cd co m).length),
      ((chunk_transcript t cd co m).get ⟨i, by omega⟩).start ≤
      ((chunk_transcript t cd co m).get ⟨i + 1, h1⟩).start := by
  intro i h1
  have hchain : List.Chain' (· ≤ ·) ((chunk_transcript t cd co m).map Chunk.start) := by
    by_cases hnil : t.segments.getD [] = []
    · simp [chunk_transcript, hnil]
    · have hraw := chunkRaw_sorted (t.segments.getD [])
        (pyOr cd CHUNK_DURATION) (pyOr co CHUNK_OVERLAP) m ho hnil
      simp only [chunk_transcript, if_neg hnil]
      split_ifs with hemit
      · rw [formatChunks, formatChunksAux_map_start]
        exact (List.chain'_map RawChunk.start).mpr hraw.1
      · rw [formatChunks, formatChunksAux_map_start]
        exact (List.chain'_map RawChunk.start).mpr hraw.2
  have hget := List.chain'_iff_get.mp hchain i
    (by rw [List.length_map]; omega)
  simpa using hget

/-- Counterexample for claim C3 as stated: with chunk_duration 1 and
chunk_overlap 100 (overlap exceeding duration) the produced chunk starts are
[0, -97, -96], which is not nondecreasing. -/
theorem claim_C3_counterexample :
    (chunk_transcript ex3 (some 1) (some 100) 1).map Chunk.start = [0, -97, -96] ∧
    ¬ ((chunk_transcript ex3 (some 1) (some 100) 1).headD default).start ≤
        (((chunk_transcript ex3 (some 1) (some 100) 1).tail).headD default).start := by
  with_unfolding_all decide

/-- Witness for claim C3: under the Config defaults a two-chunk output has
nondecreasing starts. -/
theorem claim_C3_witness :
    ((chunk_transcript w3T none none 50).get
        ⟨0, by with_unfolding_all decide⟩).start ≤
    ((chunk_transcript w3T none none 50).get
        ⟨1, by with_unfolding_all decide⟩).start :=
  claim_C3 w3T none none 50
    (by norm_num [pyOr, CHUNK_DURATION, CHUNK_OVERLAP]) 0
    (by with_unfolding_all decide)

/-- The coverage invariant after the very first loop iteration, relative to
the first segment's start. -/
lemma invC_first (segments : List MSeg) (d o : ℚ) (m : ℕ) (ho : 0 ≤ o)
    (idx : ℕ) (seg : MSeg) :
    InvC seg.start (chunkStep segments d o m { chunks := [], cur := initCur } idx seg) := by
  simp only [chunkStep]
  have hstart : ensureStart { chunks := [], cur := initCur } seg
      = { chunks := [], cur := { initCur with start := some seg.start } } := by
    simp [ensureStart, initCur]
  rw [hstart]
  split_ifs with hc
  · refine ⟨?_, ?_, ?_, ?_⟩
    · simp [doFlush, appendSeg]
    · intro c hc2
      simp only [doFlush, appendSeg, List.nil_append, List.head?_cons,
        Option.mem_def, Option.some.injEq] at hc2
      rw [← hc2]
      simp
    · intro s hs hnil
      simp [doFlush, appendSeg] at hnil
    · intro s hs c hc2
      simp only [doFlush, appendSeg, Option.some.injEq] at hs hc2
      simp only [List.nil_append, List.getLast?_singleton, Option.mem_def,
        Option.some.injEq] at hc2
      rw [← hc2, ← hs]
      simp
      linarith
  · refine ⟨List.chain'_nil, by simp [appendSeg], ?_, by simp [appendSeg]⟩
    intro s hs _
    simpa [appendSeg] using hs.symm

/-- The coverage invariant survives a later loop iteration (one whose
accumulator start is already set). -/
lemma invC_chunkStep (segments : List MSeg) (d o : ℚ) (m : ℕ) (ho : 0 ≤ o)
    (fs : ℚ) (st : ChunkState) (idx : ℕ) (seg : MSeg)
    (h : InvC fs st) (hsome : st.cur.start.isSome) :
    InvC fs (chunkStep segments d o m st idx seg) := by
  obtain ⟨h1, h2, h3, h4⟩ := h
  obtain ⟨s, hs⟩ := Option.isSome_iff_exists.mp hsome
  have hens : ensureStart st seg = st := by
    unfold ensureStart
    rw [if_neg (by simp [hs])]
  simp only [chunkStep, hens]
  split_ifs with hc
  · refine ⟨?_, ?_, ?_, ?_⟩
    · simp only [doFlush, appendSeg]
      rw [List.chain'_append]
      refine ⟨h1, List.chain'_singleton _, ?_⟩
      intro x hx y hy
      simp only [List.head?_cons, Option.mem_def, Option.some.injEq] at hy
      rw [← hy]
      simpa [linkRel, hs] using h4 s hs x hx
    · intro c hc2
      simp only [doFlush, appendSeg, List.head?_append] at hc2
      rcases hx : st.chunks.head? with - | c0
      · rw [hx, Option.none_or] at hc2
        simp only [List.head?_cons, Option.mem_def, Option.some.injEq] at hc2
        rw [← hc2]
        simp only [hs, Option.getD_some]
        cases hchunks : st.chunks with
        | nil => exact h3 s hs hchunks
        | cons a rest => rw [hchunks] at hx; cases hx
      · rw [hx, Option.or_some] at hc2
        exact h2 c (by rw [hx]; exact hc2)
    · intro s1 hs1 hnil
      simp only [doFlush, appendSeg] at hnil
      exact absurd hnil (by simp)
    · intro s1 hs1 c hc2
      simp only [doFlush, appendSeg, Option.some.injEq] at hs1
      simp only [doFlush, appendSeg, List.getLast?_concat, Option.mem_def,
        Option.some.injEq] at hc2
      rw [← hc2, ← hs1]
      simp
      linarith
  · exact ⟨h1, h2, h3, h4⟩

/-- The coverage invariant survives the rest of the loop. -/
lemma chunkLoopAux_invC (segments : List MSeg) (d o : ℚ) (m : ℕ) (ho : 0 ≤ o)
    (fs : ℚ) :
    ∀ (l : List MSeg) (idx : ℕ) (st : ChunkState),
      InvC fs st → st.cur.start.isSome →
      InvC fs (chunkLoopAux segments d o m idx st l)
  | [], _, _, h, _ => h
  | seg :: rest, idx, st, h, hsome =>
    chunkLoopAux_invC segments d o m ho fs rest (idx + 1) _
      (invC_chunkStep segments d o m ho fs st idx seg h hsome)
      (chunkStep_isSome segments d o m st idx seg)

/-- The coverage invariant of the completed loop, relative to the first
segment's start. -/
lemma chunkLoop_invC (segments : List MSeg) (d o : ℚ) (m : ℕ) (ho : 0 ≤ o)
    (hne : segments ≠ []) :
    InvC ((segments.head hne).start) (chunkLoop segments d o m) := by
  cases segments with
  | nil => exact absurd rfl hne
  | cons a rest =>
    show InvC a.start (chunkLoopAux _ d o m 1 (chunkStep _ d o m _ 0 a) rest)
    exact chunkLoopAux_invC _ d o m ho a.start rest 1 _
      (invC_first _ d o m ho 0 a) (chunkStep_isSome _ d o m _ 0 a)

/-- After the loop the accumulator end is the last processed segment's end. -/
lemma chunkLoopAux_stop (segments : List MSeg) (d o : ℚ) (m : ℕ) :
    ∀ (l : List MSeg) (hne : l ≠ []) (idx : ℕ) (st : ChunkState),
      (chunkLoopAux segments d o m idx st l).cur.stop
        = some ((l.getLast hne).stop)
  | [], hne, _, _ => absurd rfl hne
  | [a], _, idx, st => chunkStep_stop segments d o m st idx a
  | a :: b :: rest, _, idx, st => by
    show (chunkLoopAux segments d o m (idx + 1)
      (chunkStep segments d o m st idx a) (b :: rest)).cur.stop = _
    rw [chunkLoopAux_stop segments d o m (b :: rest) (List.cons_ne_nil _ _) (idx + 1) _,
      List.getLast_cons_cons]

/-- The accumulator end of the completed loop is the last segment's end. -/
lemma chunkLoop_stop (segments : List MSeg) (d o : ℚ) (m : ℕ)
    (hne : segments ≠ []) :
    (chunkLoop segments d o m).cur.stop = some ((segments.getLast hne).stop) :=
  chunkLoopAux_stop segments d o m segments hne 0 _

/-- A nonempty chain of linked chunks whose head starts at or before `x` and
whose last chunk ends after `x` contains a chunk covering `x`. -/
lemma linked_cover :
    ∀ (l : List RawChunk), List.Chain' linkRel l →
      ∀ x : ℚ, (∀ a ∈ l.head?, a.start ≤ x) → (∀ b ∈ l.getLast?, x < b.stop) →
        l ≠ [] → ∃ c ∈ l, c.start ≤ x ∧ x < c.stop := by
  intro l
  induction l with
  | nil => intro _ x _ _ h; exact absurd rfl h
  | cons a t ih =>
    intro hchain x hhead hlast _
    by_cases hx : x < a.stop
    · exact ⟨a, List.mem_cons_self a t, hhead a rfl, hx⟩
    · cases t with
      | nil => exact absurd (hlast a rfl) hx
      | cons b t2 =>
        have hpair := List.chain'_cons.mp hchain
        have hbx : b.start ≤ x := le_trans hpair.1 (le_of_not_lt hx)
        obtain ⟨c, hc, hc1, hc2⟩ := ih hpair.2 x
          (by intro a2 ha2; simp only [List.head?_cons, Option.mem_def,
                Option.some.injEq] at ha2; rw [← ha2]; exact hbx)
          (by intro b2 hb2; exact hlast b2 (by rw [List.getLast?_cons_cons]; exact hb2))
          (List.cons_ne_nil _ _)
        exact ⟨c, List.mem_cons_of_mem a hc, hc1, hc2⟩

/-- Formatting preserves the (start, end) pairs of the chunks, in order. -/
lemma formatChunksAux_map_pair (ep : String) :
    ∀ (i : ℕ) (raw : List RawChunk),
      (formatChunksAux ep i raw).map (fun c => (c.start, c.stop))
        = raw.map (fun c => (c.start, c.stop))
  | _, [] => rfl
  | i, c :: rest => by
    simp only [formatChunksAux, List.map_cons, formatChunksAux_map_pair ep (i + 1) rest]
    rfl

/-- Claim C4 (amended): for a transcript with a nonempty segments list, if the
effective chunk overlap is nonnegative and the trailing accumulator is
emitted as a final chunk (its text is non-blank and at least
`min_chunk_size` characters long), then the union of the
`[chunk.start, chunk.stop)` windows covers the whole
`[first_segment.start, last_segment.stop)` span with no gaps. -/
theorem claim_C4 (t : Transcript) (cd co : Option ℚ) (m : ℕ) (segs : List MSeg)
    (hs : t.segments = some segs) (hne : segs ≠ [])
    (ho : 0 ≤ pyOr co CHUNK_OVERLAP)
    (hemit : pyStrip (chunkLoop segs (pyOr cd CHUNK_DURATION) (pyOr co CHUNK_OVERLAP) m).cur.text
        ≠ "" ∧
      m ≤ (chunkLoop segs (pyOr cd CHUNK_DURATION) (pyOr co CHUNK_OVERLAP) m).cur.text.length)
    (x : ℚ) (hx1 : (segs.head hne).start ≤ x) (hx2 : x < (segs.getLast hne).stop) :
    ∃ c ∈ chunk_transcript t cd co m, c.start ≤ x ∧ x < c.stop := by
  set d := pyOr cd CHUNK_DURATION with hd
  set o := pyOr co CHUNK_OVERLAP with hov
  obtain ⟨h1, h2, h3, h4⟩ := chunkLoop_invC segs d o m ho hne
  obtain ⟨s, hsval⟩ := Option.isSome_iff_exists.mp (chunkLoop_isSome segs d o m hne)
  set st := chunkLoop segs d o m with hst
  set raw := st.chunks ++ [finalizeCur st.cur] with hraw
  have hfc_start : (finalizeCur st.cur).start = s := by simp [finalizeCur, hsval]
  have hfc_stop : (finalizeCur st.cur).stop = (segs.getLast hne).stop := by
    show st.cur.stop.getD 0 = _
    rw [hst, chunkLoop_stop segs d o m hne]
    rfl
  have hchain : List.Chain' linkRel raw := by
    rw [hraw, List.chain'_append]
    refine ⟨h1, List.chain'_singleton _, ?_⟩
    intro a ha b hb
    simp only [List.head?_cons, Option.mem_def, Option.some.injEq] at hb
    rw [← hb]
    unfold linkRel
    rw [hfc_start]
    exact h4 s hsval a ha
  have hhead : ∀ a ∈ raw.head?, a.start ≤ x := by
    intro a ha
    rw [hraw, List.head?_append] at ha
    cases hcs : st.chunks with
    | nil =>
      rw [hcs, List.head?_nil, Option.none_or] at ha
      simp only [List.head?_cons, Option.mem_def, Option.some.injEq] at ha
      rw [← ha, hfc_start, h3 s hsval hcs]
      exact hx1
    | cons c0 rest =>
      rw [hcs, List.head?_cons, Option.or_some] at ha
      simp only [Option.mem_def, Option.some.injEq] at ha
      have := h2 c0 (by rw [hcs]; rfl)
      rw [← ha, this]
      exact hx1
  have hlast : ∀ b ∈ raw.getLast?, x < b.stop := by
    intro b hb
    rw [hraw, List.getLast?_concat] at hb
    simp only [Option.mem_def, Option.some.injEq] at hb
    rw [← hb, hfc_stop]
    exact hx2
  obtain ⟨c, hcmem, hcx1, hcx2⟩ :=
    linked_cover raw hchain x hhead hlast (by simp [hraw])
  have hout : chunk_transcript t cd co m = formatChunks (t.file.getD "unknown") raw :=
    chunk_transcript_emit t cd co m segs hs hne hemit
  have hpairs : ((c.start, c.stop) : ℚ × ℚ)
      ∈ (chunk_transcript t cd co m).map (fun c => (c.start, c.stop)) := by
    rw [hout, formatChunks, formatChunksAux_map_pair]
    exact List.mem_map_of_mem _ hcmem
  obtain ⟨c2, hc2mem, hc2pair⟩ := List.mem_map.mp hpairs
  refine ⟨c2, hc2mem, ?_, ?_⟩
  · rw [show c2.start = c.start from congrArg Prod.fst hc2pair]
    exact hcx1
  · rw [show c2.stop = c.stop from congrArg Prod.snd hc2pair]
    exact hcx2

/-- Counterexample for claim C4 as stated. First input: the trailing
accumulator (covering up to t=20) falls below `min_chunk_size` and is
dropped, so the single produced chunk [0, 12) leaves 15 uncovered although
15 lies in the [0, 20) span. Second input: a negative chunk_overlap makes
consecutive chunks [0,3), [13,20), [30,20) leave 5 uncovered. -/
theorem claim_C4_counterexample :
    ((0:ℚ) ≤ 15 ∧ (15:ℚ) < 20 ∧
      (chunk_transcript ex4a (some 10) (some 5) 5).map (fun c => (c.start, c.stop))
        = [((0:ℚ), (12:ℚ))] ∧
      ¬ ∃ c ∈ chunk_transcript ex4a (some 10) (some 5) 5,
          c.start ≤ 15 ∧ (15:ℚ) < c.stop) ∧
    ((0:ℚ) ≤ 5 ∧ (5:ℚ) < 20 ∧
      ¬ ∃ c ∈ chunk_transcript ex4b (some 1) (some (-10)) 1,
          c.start ≤ 5 ∧ (5:ℚ) < c.stop) := by
  with_unfolding_all decide

/-- Witness for claim C4: with the Config defaults and an emitted final chunk
the point 7 of the [0, 10) span is covered. -/
theorem claim_C4_witness :
    ∃ c ∈ chunk_transcript w4T none none 1, c.start ≤ 7 ∧ (7:ℚ) < c.stop :=
  claim_C4 w4T none none 1
    [⟨0, 5, "hello", some "A"⟩, ⟨5, 10, "world", some "B"⟩]
    rfl (List.cons_ne_nil _ _)
    (by norm_num [pyOr, CHUNK_OVERLAP])
    (by with_unfolding_all decide)
    7 (by with_unfolding_all decide) (by with_unfolding_all decide)

/-- roundHalfEven of an integer is that integer. -/
lemma roundHalfEven_intCast (k : ℤ) : roundHalfEven (k : ℚ) = k := by
  simp only [roundHalfEven, Int.floor_intCast]
  norm_num

/-- roundHalfEven is at least the floor. -/
lemma le_roundHalfEven (q : ℚ) : Int.floor q ≤ roundHalfEven q := by
  simp only [roundHalfEven]
  split_ifs <;> omega

/-- roundHalfEven stays below any integer more than half a unit above q. -/
lemma roundHalfEven_le (q : ℚ) (M : ℤ) (h : q < (M : ℚ) - 1/2) :
    roundHalfEven q ≤ M - 1 := by
  have hfl : (Int.floor q : ℚ) ≤ q := Int.floor_le q
  have h1 : Int.floor q < M := by
    have : (Int.floor q : ℚ) < (M : ℚ) := by linarith
    exact_mod_cast this
  simp only [roundHalfEven]
  split_ifs with ha hb hc
  · omega
  · have h2 : Int.floor q < M - 1 := by
      have h3 := not_lt.mp ha
      have : (Int.floor q : ℚ) < (M : ℚ) - 1 := by linarith
      exact_mod_cast this
    omega
  · omega
  · have h2 : Int.floor q < M - 1 := by
      have h3 := not_lt.mp ha
      have : (Int.floor q : ℚ) < (M : ℚ) - 1 := by linarith
      exact_mod_cast this
    omega

/-- For x in [0, 86400) whose fractional part is below 1 - 1/2000000, the
timedelta seconds attribute is just the floor of x: the microsecond rounding
does not cross into the next second and the day reduction is the identity. -/
lemma tdSeconds_eq (x : ℚ) (h0 : 0 ≤ x) (h1 : x < 86400)
    (h2 : Int.fract x < 1999999/2000000) : tdSeconds x = Int.floor x := by
  have hfl : 0 ≤ Int.floor x := Int.floor_nonneg.mpr h0
  have hfl1 : Int.floor x < 86400 := Int.floor_lt.mpr (by exact_mod_cast h1)
  have hlow : Int.floor x * 1000000 ≤ roundHalfEven (x * 1000000) := by
    refine le_trans ?_ (le_roundHalfEven _)
    apply Int.le_floor.mpr
    push_cast
    have := Int.floor_le x
    linarith
  have hhigh : roundHalfEven (x * 1000000) ≤ Int.floor x * 1000000 + 999999 := by
    have hkey : x * 1000000 < ((Int.floor x * 1000000 + 1000000 : ℤ) : ℚ) - 1/2 := by
      have hfr := Int.floor_add_fract x
      push_cast
      linarith
    have := roundHalfEven_le (x * 1000000) (Int.floor x * 1000000 + 1000000) hkey
    omega
  unfold tdSeconds
  have hdiv : roundHalfEven (x * 1000000) / 1000000 = Int.floor x := by omega
  rw [hdiv]
  exact Int.emod_eq_of_lt hfl hfl1

/-- Python's split never returns an empty list of parts. -/
lemma splitOnChar_ne_nil (c : Char) : ∀ l : List Char, splitOnChar c l ≠ []
  | [] => by simp [splitOnChar]
  | a :: rest => by
    simp only [splitOnChar]
    cases h : splitOnChar c rest with
    | nil => exact absurd h (splitOnChar_ne_nil c rest)
    | cons p ps => split_ifs <;> simp

/-- Splitting a separator-free list yields that one part. -/
lemma splitOnChar_not_mem (c : Char) :
    ∀ (l : List Char), c ∉ l → splitOnChar c l = [l]
  | [], _ => rfl
  | a :: rest, h => by
    have hrest := splitOnChar_not_mem c rest (fun hm => h (List.mem_cons_of_mem a hm))
    have ha : a ≠ c := fun he => h (he ▸ List.mem_cons_self a rest)
    simp only [splitOnChar, hrest]
    rw [if_neg ha]

/-- Splitting at the first separator of a list with separator-free prefix. -/
lemma splitOnChar_append (c : Char) :
    ∀ (A B : List Char), c ∉ A →
      splitOnChar c (A ++ c :: B) = A :: splitOnChar c B
  | [], B, _ => by
    simp only [List.nil_append, splitOnChar]
    cases h : splitOnChar c B with
    | nil => exact absurd h (splitOnChar_ne_nil c B)
    | cons p ps => simp
  | a :: A2, B, h => by
    have hA2 := splitOnChar_append c A2 B (fun hm => h (List.mem_cons_of_mem a hm))
    have ha : a ≠ c := fun he => h (he ▸ List.mem_cons_self a A2)
    simp only [List.cons_append, splitOnChar, List.append_eq, hA2]
    rw [if_neg ha]

/-- Parsing of a two-digit zero-padded field, plus separator-freeness, for
every value the formatter can produce there. -/
lemma pad2_facts : ∀ n < 100, parseInt (pad 2 n) = some (n : ℤ) ∧
    (':' ∈ pad 2 n → False) ∧ ('.' ∈ pad 2 n → False) := by decide

/-- The characters the formatter uses for digits are decimal digits, decode
to their value, and are never a separator. -/
lemma digitChar_facts : ∀ d < 10, (Nat.digitChar d).isDigit = true ∧
    (Nat.digitChar d).toNat - 48 = d ∧ Nat.digitChar d ≠ '.' ∧
    Nat.digitChar d ≠ ':' := by
  decide

/-- The three-digit field spelt out. -/
lemma pad_three (n : ℕ) : pad 3 n
    = [Nat.digitChar (n / 100 % 10), Nat.digitChar (n / 10 % 10),
       Nat.digitChar (n % 10)] := by
  simp [pad, List.range_succ]

/-- Parsing of the three-digit millisecond field via `float("0." + ms)`,
plus '.'-freeness, for every value the formatter can produce there. -/
lemma pad3_facts : ∀ n < 1000, parseFrac (pad 3 n) = some ((n : ℚ) / 1000) ∧
    ('.' ∈ pad 3 n → False) := by
  intro n h
  obtain ⟨ha1, ha2, ha3, -⟩ := digitChar_facts (n / 100 % 10) (by omega)
  obtain ⟨hb1, hb2, hb3, -⟩ := digitChar_facts (n / 10 % 10) (by omega)
  obtain ⟨hc1, hc2, hc3, -⟩ := digitChar_facts (n % 10) (by omega)
  rw [pad_three]
  constructor
  · have hne : ¬ ([Nat.digitChar (n / 100 % 10), Nat.digitChar (n / 10 % 10),
        Nat.digitChar (n % 10)] = ([] : List Char)) := by simp
    have hall : ([Nat.digitChar (n / 100 % 10), Nat.digitChar (n / 10 % 10),
        Nat.digitChar (n % 10)].all (fun c => c.isDigit)) = true := by
      simp [ha1, hb1, hc1]
    unfold parseFrac parseNatDigits
    rw [if_neg hne, if_neg hne, if_pos hall]
    have hfold : [Nat.digitChar (n / 100 % 10), Nat.digitChar (n / 10 % 10),
        Nat.digitChar (n % 10)].foldl (fun a c => 10 * a + (c.toNat - 48)) 0 = n := by
      simp only [List.foldl_cons, List.foldl_nil]
      rw [ha2, hb2, hc2]
      omega
    rw [hfold]
    norm_num
  · intro hm
    simp only [List.mem_cons, List.not_mem_nil, or_false] at hm
    rcases hm with h2 | h2 | h2
    · exact ha3 h2.symm
    · exact hb3 h2.symm
    · exact hc3 h2.symm

/-- `timestamp_to_seconds` on an explicit character list. -/
lemma timestamp_to_seconds_mk (l : List Char) :
    timestamp_to_seconds (String.mk l)
      = match splitOnChar '.' l with
        | [t] => parseHMS t 0
        | [t, m] => (parseFrac m).bind (fun ms => parseHMS t ms)
        | _ => none := rfl

/-- Claim C5 (amended): for every x with 0 ≤ x < 86400 whose fractional part
is less than 1999999/2000000 (i.e. x not within half a microsecond of the
next whole second), converting x to a clock string and parsing it back
yields a value within 1 millisecond of x. -/
theorem claim_C5 (x : ℚ) (h0 : 0 ≤ x) (h1 : x < 86400)
    (h2 : Int.fract x < 1999999/2000000) :
    ∃ r, timestamp_to_seconds (seconds_to_timestamp x true) = some r ∧
      |x - r| < 1/1000 := by
  have hF0 : 0 ≤ Int.floor x := Int.floor_nonneg.mpr h0
  set N : ℕ := (Int.floor x).toNat with hN
  have hNF : (N : ℤ) = Int.floor x := Int.toNat_of_nonneg hF0
  have hNlt : N < 86400 := by
    have := Int.floor_lt.mpr (show x < ((86400:ℤ):ℚ) by exact_mod_cast h1)
    omega
  have hfr0 : (0:ℚ) ≤ x - Int.floor x := sub_nonneg.mpr (Int.floor_le x)
  have hfr1 : x - Int.floor x < 1 := by
    have := Int.lt_floor_add_one x
    push_cast at this
    linarith
  have hmsfl0 : 0 ≤ Int.floor ((x - Int.floor x) * 1000) :=
    Int.floor_nonneg.mpr (by nlinarith)
  set ms : ℕ := (Int.floor ((x - Int.floor x) * 1000)).toNat with hms
  have hmsZ : (ms : ℤ) = Int.floor ((x - Int.floor x) * 1000) :=
    Int.toNat_of_nonneg hmsfl0
  have hmslt : ms < 1000 := by
    have hlt : Int.floor ((x - Int.floor x) * 1000) < 1000 := by
      apply Int.floor_lt.mpr
      push_cast
      linarith
    omega
  have htds : (tdSeconds x).toNat = N := by
    rw [tdSeconds_eq x h0 h1 h2, hN]
  have hstr : seconds_to_timestamp x true
      = String.mk (pad 2 (N / 3600) ++ ':' :: pad 2 (N % 3600 / 60)
          ++ ':' :: pad 2 (N % 60) ++ '.' :: pad 3 ms) := by
    simp only [seconds_to_timestamp, if_neg (not_lt.mpr h0)]
    rw [if_pos trivial, htds, ← hms]
  obtain ⟨hph, hph1, hph2⟩ := pad2_facts (N / 3600) (by omega)
  obtain ⟨hpm, hpm1, hpm2⟩ := pad2_facts (N % 3600 / 60) (by omega)
  obtain ⟨hps, hps1, hps2⟩ := pad2_facts (N % 60) (by omega)
  obtain ⟨hpf, hpf2⟩ := pad3_facts ms hmslt
  have hdotA : '.' ∉ (pad 2 (N / 3600) ++ ':' :: (pad 2 (N % 3600 / 60)
      ++ ':' :: pad 2 (N % 60))) := by
    intro hmem
    rcases List.mem_append.mp hmem with h | h
    · exact hph2 h
    · rcases List.mem_cons.mp h with h | h
      · exact absurd h (by decide)
      · rcases List.mem_append.mp h with h | h
        · exact hpm2 h
        · rcases List.mem_cons.mp h with h | h
          · exact absurd h (by decide)
          · exact hps2 h
  have hL : pad 2 (N / 3600) ++ ':' :: pad 2 (N % 3600 / 60)
      ++ ':' :: pad 2 (N % 60) ++ '.' :: pad 3 ms
      = (pad 2 (N / 3600) ++ ':' :: (pad 2 (N % 3600 / 60)
          ++ ':' :: pad 2 (N % 60))) ++ '.' :: pad 3 ms := by
    simp
  have hsplit1 : splitOnChar '.' (pad 2 (N / 3600) ++ ':' :: pad 2 (N % 3600 / 60)
      ++ ':' :: pad 2 (N % 60) ++ '.' :: pad 3 ms)
      = [pad 2 (N / 3600) ++ ':' :: (pad 2 (N % 3600 / 60) ++ ':' :: pad 2 (N % 60)),
         pad 3 ms] := by
    rw [hL, splitOnChar_append '.' _ _ hdotA, splitOnChar_not_mem '.' _ hpf2]
  have hsplit2 : splitOnChar ':' (pad 2 (N / 3600) ++ ':' :: (pad 2 (N % 3600 / 60)
      ++ ':' :: pad 2 (N % 60)))
      = [pad 2 (N / 3600), pad 2 (N % 3600 / 60), pad 2 (N % 60)] := by
    rw [splitOnChar_append ':' _ _ hph1, splitOnChar_append ':' _ _ hpm1,
      splitOnChar_not_mem ':' _ hps1]
  have harith : ((↑(N / 3600) : ℤ) : ℚ) * 3600 + ((↑(N % 3600 / 60) : ℤ) : ℚ) * 60
      + ((↑(N % 60) : ℤ) : ℚ) + (ms : ℚ) / 1000 = (N : ℚ) + (ms : ℚ) / 1000 := by
    have hnat : N / 3600 * 3600 + N % 3600 / 60 * 60 + N % 60 = N := by omega
    have hcast := congrArg (Nat.cast : ℕ → ℚ) hnat
    push_cast at hcast
    rw [Int.cast_natCast, Int.cast_natCast, Int.cast_natCast]
    linarith
  have hround : roundTo 3 ((N : ℚ) + (ms : ℚ) / 1000) = (N : ℚ) + (ms : ℚ) / 1000 := by
    unfold roundTo
    have hint : ((N : ℚ) + (ms : ℚ) / 1000) * 10 ^ 3
        = (((N * 1000 + ms : ℕ) : ℤ) : ℚ) := by
      push_cast
      ring
    rw [hint, roundHalfEven_intCast]
    push_cast
    ring
  refine ⟨(N : ℚ) + (ms : ℚ) / 1000, ?_, ?_⟩
  · rw [hstr, timestamp_to_seconds_mk, hsplit1]
    show (parseFrac (pad 3 ms)).bind
      (fun v => parseHMS (pad 2 (N / 3600) ++ ':' :: (pad 2 (N % 3600 / 60)
        ++ ':' :: pad 2 (N % 60))) v) = _
    rw [hpf]
    show parseHMS (pad 2 (N / 3600) ++ ':' :: (pad 2 (N % 3600 / 60)
      ++ ':' :: pad 2 (N % 60))) ((ms : ℚ) / 1000) = _
    rw [parseHMS, hsplit2]
    show (parseInt (pad 2 (N / 3600))).bind
      (fun hh => (parseInt (pad 2 (N % 3600 / 60))).bind
        (fun mm => (parseInt (pad 2 (N % 60))).map (fun ss =>
          roundTo 3 ((hh : ℚ) * 3600 + (mm : ℚ) * 60 + (ss : ℚ) + (ms : ℚ) / 1000)))) = _
    rw [hph, hpm, hps]
    show some (roundTo 3 (((↑(N / 3600) : ℤ) : ℚ) * 3600
      + ((↑(N % 3600 / 60) : ℤ) : ℚ) * 60 + ((↑(N % 60) : ℤ) : ℚ)
      + (ms : ℚ) / 1000)) = _
    rw [harith, hround]
  · have hNQ : (N : ℚ) = ((Int.floor x : ℤ) : ℚ) := by exact_mod_cast hNF
    have hxe : x - ((N : ℚ) + (ms : ℚ) / 1000)
        = (x - Int.floor x) - (ms : ℚ) / 1000 := by
      rw [hNQ]
      ring
    have hms_le : (ms : ℚ) ≤ (x - Int.floor x) * 1000 := by
      have hfl := Int.floor_le ((x - Int.floor x) * 1000)
      have : ((ms : ℤ) : ℚ) ≤ (x - Int.floor x) * 1000 := by
        rw [hmsZ]
        exact hfl
      exact_mod_cast this
    have hms_gt : (x - Int.floor x) * 1000 < (ms : ℚ) + 1 := by
      have hfl := Int.lt_floor_add_one ((x - Int.floor x) * 1000)
      have : (x - Int.floor x) * 1000 < ((ms : ℤ) : ℚ) + 1 := by
        rw [hmsZ]
        push_cast at hfl
        linarith
      exact_mod_cast this
    rw [hxe, abs_lt]
    constructor <;> linarith

set_option maxRecDepth 2000 in
/-- Counterexample for claim C5 as stated: at x = 86400 (one full day) the
formatter wraps to "00:00:00.000", which parses back to 0, a full day off;
and at x = 5.9999995 the timedelta microsecond rounding carries the seconds
field to 6 while the millisecond field stays 999, producing "00:00:06.999",
nearly a second off. -/
theorem claim_C5_counterexample :
    timestamp_to_seconds (seconds_to_timestamp (86400 : ℚ) true) = some 0 ∧
    ¬ |(86400 : ℚ) - 0| < 1/1000 ∧
    timestamp_to_seconds (seconds_to_timestamp (11999999/2000000 : ℚ) true)
      = some (6999/1000) ∧
    ¬ |(11999999/2000000 : ℚ) - 6999/1000| < 1/1000 := by
  have c1 : timestamp_to_seconds (seconds_to_timestamp (86400 : ℚ) true) = some 0 := by
    with_unfolding_all decide
  have c2 : ¬ |(86400 : ℚ) - 0| < 1/1000 := by
    with_unfolding_all decide
  have c3a : seconds_to_timestamp (11999999/2000000 : ℚ) true = "00:00:06.999" := by
    with_unfolding_all decide
  have c3b : timestamp_to_seconds "00:00:06.999" = some (6999/1000) := by
    have hshape : timestamp_to_seconds "00:00:06.999"
        = some (roundTo 3 (((0:ℤ):ℚ) * 3600 + ((0:ℤ):ℚ) * 60 + ((6:ℤ):ℚ)
          + ((999:ℕ):ℚ)/10^(3:ℕ))) := by with_unfolding_all rfl
    rw [hshape, Option.some.injEq]
    have harg : (((0:ℤ):ℚ) * 3600 + ((0:ℤ):ℚ) * 60 + ((6:ℤ):ℚ)
        + ((999:ℕ):ℚ)/10^(3:ℕ)) * 10 ^ (3:ℕ) = ((6999:ℤ):ℚ) := by
      push_cast; norm_num
    simp only [roundTo, harg, roundHalfEven_intCast]
    push_cast; norm_num
  have c3 : timestamp_to_seconds (seconds_to_timestamp (11999999/2000000 : ℚ) true)
      = some (6999/1000) := by
    rw [c3a, c3b]
  have c4 : ¬ |(11999999/2000000 : ℚ) - 6999/1000| < 1/1000 := by
    have he : |(11999999/2000000 : ℚ) - 6999/1000| = 1998001/2000000 := by
      rw [show (11999999/2000000 : ℚ) - 6999/1000 = -(1998001/2000000) by norm_num,
        abs_neg, abs_of_pos (by norm_num : (0:ℚ) < 1998001/2000000)]
    rw [he]
    norm_num
  exact ⟨c1, c2, c3, c4⟩

/-- Witness for claim C5 at the docstring's example value 125.456. -/
theorem claim_C5_witness :
    ∃ r, timestamp_to_seconds (seconds_to_timestamp (125456/1000 : ℚ) true)
        = some r ∧ |(125456/1000 : ℚ) - r| < 1/1000 :=
  claim_C5 (125456/1000) (by norm_num) (by norm_num)
    (by with_unfolding_all decide)

end PodScribe
